import Mathlib

/-!
Verification of the evaluation/scoring engine of the
Medical-Extraction-Langextract repository (`src/utils/eval.py`).

Strings are modelled as lists of characters (`Str`), extraction records as
pairs of a class string and a text string, JSON values as an inductive type,
and floating-point results as rationals.  Each definition mirrors one Python
function of `src/utils/eval.py`.
-/

/-- Python strings, modelled as lists of characters. -/
abbrev Str := List Char

/-- An extraction record `{"class": ..., "text": ...}`.  Missing keys are read
with `dict.get(key, "")` in the source, so a record is fully described by its
class string and its text string. -/
structure ERec where
  cls : Str
  text : Str
  deriving DecidableEq, Repr

/-- Python `str.strip()`: drop leading and trailing whitespace. -/
def stripWs (s : Str) : Str :=
  ((s.dropWhile Char.isWhitespace).reverse.dropWhile Char.isWhitespace).reverse

/-- Helper for `splitWords`: accumulates the current word (reversed). -/
def splitWordsAux : Str → Str → List Str
  | [], acc => if acc = [] then [] else [acc.reverse]
  | c :: cs, acc =>
    if c.isWhitespace then
      if acc = [] then splitWordsAux cs [] else acc.reverse :: splitWordsAux cs []
    else splitWordsAux cs (c :: acc)

/-- Python `str.split()` with no argument: split on whitespace runs, dropping
empty fragments. -/
def splitWords (s : Str) : List Str := splitWordsAux s []

/-- `normalize_for_match` from `src/utils/eval.py`:
the space-joined list `s.lower().strip().split()` — lowercase, strip, collapse internal
whitespace runs to single spaces. -/
def normalize_for_match (s : Str) : Str :=
  List.intercalate [' '] (splitWords (stripWs (s.map Char.toLower)))

/-- Python `a.startswith`-style prefix test on character lists (used to model
the substring operator `in`). -/
def startsWith : Str → Str → Bool
  | [], _ => true
  | _ :: _, [] => false
  | a :: as, b :: bs => a = b && startsWith as bs

/-- Python's substring operator `p in g` on strings: `p` occurs contiguously
inside `g`. -/
def isSubList : Str → Str → Bool
  | p, [] => p.isEmpty
  | p, c :: cs => startsWith p (c :: cs) || isSubList p cs

/-- `partial_match` from `src/utils/eval.py`: true if the normalized predicted
text is contained in the normalized gold text or vice versa, and both are
non-empty. -/
def partial_match (pred_text gold_text : Str) : Bool :=
  let p := normalize_for_match pred_text
  let g := normalize_for_match gold_text
  if p = [] ∨ g = [] then false
  else isSubList p g || isSubList g p

/-- `exact_match` from `src/utils/eval.py`: equality of normalized texts. -/
def exact_match (pred_text gold_text : Str) : Bool :=
  normalize_for_match pred_text = normalize_for_match gold_text

/-- Python `enumerate`, with a starting index. -/
def pyEnum : Nat → List α → List (Nat × α)
  | _, [] => []
  | n, a :: as => (n, a) :: pyEnum (n + 1) as

/-- The inner `for i, g in enumerate(gold)` loop of `compute_metrics`: scan the
(enumerated) gold records in order, skip indices already consumed, skip gold
records of a different class, and return the index of the first gold record
whose class matches and whose text satisfies the predicate. -/
def scanGold (m : Str → Str → Bool) (p : ERec) (consumed : List Nat) :
    List (Nat × ERec) → Option Nat
  | [] => none
  | (i, g) :: rest =>
    if i ∈ consumed then scanGold m p consumed rest
    else if p.cls ≠ g.cls then scanGold m p consumed rest
    else if m p.text g.text then some i
    else scanGold m p consumed rest

/-- One iteration of the outer `for p in predicted` loop of `compute_metrics`:
the state is the pair (true-positive count, consumed gold indices). -/
def stepPred (m : Str → Str → Bool) (gold : List ERec) (st : Nat × List Nat)
    (p : ERec) : Nat × List Nat :=
  match scanGold m p st.2 (pyEnum 0 gold) with
  | some i => (st.1 + 1, i :: st.2)
  | none => st

/-- The whole greedy matching loop of `compute_metrics`: fold over the
predicted records, starting from `tp = 0` and an empty consumed set. -/
def greedy (m : Str → Str → Bool) (predicted gold : List ERec) :
    Nat × List Nat :=
  predicted.foldl (stepPred m gold) (0, [])

/-- The result dictionary of `compute_metrics`, with Python floats modelled as
rationals. -/
structure Metrics where
  precision : ℚ
  «recall» : ℚ
  f1 : ℚ
  tp : Nat
  pred : Nat
  gold : Nat
  deriving DecidableEq, Repr

/-- The string `"partial"` (name of the default predicate). -/
def pname : Str := "partial".toList

/-- The string `"exact"`. -/
def ename : Str := "exact".toList

/-- The predicate selection line of `compute_metrics`:
`match = partial_match if match_fn == "partial" else exact_match`. -/
def selectMatch (match_fn : Str) : Str → Str → Bool :=
  if match_fn = pname then partial_match else exact_match

/-- `compute_metrics` from `src/utils/eval.py`: greedy first-match between
predicted and gold records, then precision / recall / F1 with zero guards. -/
def compute_metrics (predicted gold : List ERec) (match_fn : Str) : Metrics :=
  let m := selectMatch match_fn
  let tp := (greedy m predicted gold).1
  let num_pred := predicted.length
  let num_gold := gold.length
  let precision : ℚ := if num_pred ≠ 0 then (tp : ℚ) / num_pred else 0
  let «recall» : ℚ := if num_gold ≠ 0 then (tp : ℚ) / num_gold else 0
  let f1 : ℚ :=
    if precision + «recall» > 0 then 2 * precision * «recall» / (precision + «recall»)
    else 0
  ⟨precision, «recall», f1, tp, num_pred, num_gold⟩

/-- A parsed JSON value (result of `json.load`). -/
inductive JVal where
  | jnull : JVal
  | jbool : Bool → JVal
  | jnum : ℚ → JVal
  | jstr : Str → JVal
  | jarr : List JVal → JVal
  | jobj : List (Str × JVal) → JVal

/-- Python `key in d` / `d[key]` on a JSON object (keys of a parsed JSON
object are unique, so first-match lookup is faithful). -/
def lookupField (fields : List (Str × JVal)) (key : Str) : Option JVal :=
  (fields.find? (fun f => decide (f.1 = key))).map (·.2)

/-- The string `"extractions"`. -/
def extractionsKey : Str := "extractions".toList

/-- `load_gold` from `src/utils/eval.py`, applied to the parsed JSON value:
a bare list is returned as is, an object with an `"extractions"` field yields
that field's value, and anything else yields the empty list. -/
def load_gold : JVal → JVal
  | .jarr xs => .jarr xs
  | .jobj fs =>
    match lookupField fs extractionsKey with
    | some v => v
    | none => .jarr []
  | _ => .jarr []

/-- The per-document loop and aggregation of `run_eval` from
`src/utils/eval.py`, applied to the document pairs that have both a predicted
and a gold record sequence (pairs missing either file are skipped before this
point).  Returns the per-file metrics and the aggregate: the aggregate is a
global recompute over the pooled sequences when both pools are non-empty
(`if all_pred and all_gold`), and absent (`{}` in the source) otherwise. -/
def run_eval_core (docs : List (List ERec × List ERec)) :
    List Metrics × Option Metrics :=
  let results := docs.map (fun d => compute_metrics d.1 d.2 pname)
  let all_pred := (docs.map Prod.fst).flatten
  let all_gold := (docs.map Prod.snd).flatten
  let aggregate :=
    if all_pred ≠ [] ∧ all_gold ≠ [] then
      some (compute_metrics all_pred all_gold pname)
    else none
  (results, aggregate)

/-! ### Basic facts about the embedded definitions -/

/-- Projection of `compute_metrics`: the true-positive count is the first
component of the greedy fold. -/
theorem cm_tp (predicted gold : List ERec) (mf : Str) :
    (compute_metrics predicted gold mf).tp =
      (greedy (selectMatch mf) predicted gold).1 := rfl

/-- Projection of `compute_metrics`: the `pred` field is the length of the
predicted list. -/
theorem cm_pred (predicted gold : List ERec) (mf : Str) :
    (compute_metrics predicted gold mf).pred = predicted.length := rfl

/-- Projection of `compute_metrics`: the `gold` field is the length of the
gold list. -/
theorem cm_gold (predicted gold : List ERec) (mf : Str) :
    (compute_metrics predicted gold mf).gold = gold.length := rfl

/-- Projection of `compute_metrics`: the precision formula. -/
theorem cm_precision (predicted gold : List ERec) (mf : Str) :
    (compute_metrics predicted gold mf).precision =
      (if predicted.length ≠ 0 then
        ((compute_metrics predicted gold mf).tp : ℚ) / predicted.length
       else 0) := rfl

/-- Projection of `compute_metrics`: the recall formula. -/
theorem cm_recall (predicted gold : List ERec) (mf : Str) :
    (compute_metrics predicted gold mf).«recall» =
      (if gold.length ≠ 0 then
        ((compute_metrics predicted gold mf).tp : ℚ) / gold.length
       else 0) := rfl

/-- Projection of `compute_metrics`: the F1 formula. -/
theorem cm_f1 (predicted gold : List ERec) (mf : Str) :
    (compute_metrics predicted gold mf).f1 =
      (if (compute_metrics predicted gold mf).precision
            + (compute_metrics predicted gold mf).«recall» > 0 then
        2 * (compute_metrics predicted gold mf).precision
            * (compute_metrics predicted gold mf).«recall»
          / ((compute_metrics predicted gold mf).precision
            + (compute_metrics predicted gold mf).«recall»)
       else 0) := rfl

/-- `startsWith a b` holds exactly when `a` is a prefix of `b`. -/
theorem startsWith_iff (a : Str) :
    ∀ b : Str, startsWith a b = true ↔ ∃ t, a ++ t = b := by
  induction a with
  | nil => intro b; simp [startsWith]
  | cons x xs ih =>
    intro b
    cases b with
    | nil => simp [startsWith]
    | cons y ys =>
      simp only [startsWith, Bool.and_eq_true, decide_eq_true_eq, ih ys,
        List.cons_append, List.cons.injEq]
      constructor
      · rintro ⟨hxy, t, ht⟩; exact ⟨t, hxy, ht⟩
      · rintro ⟨t, hxy, ht⟩; exact ⟨hxy, t, ht⟩

/-- `isSubList p g` holds exactly when `p` occurs contiguously inside `g`
(Python's substring operator `in`). -/
theorem isSubList_iff (p : Str) :
    ∀ g : Str, isSubList p g = true ↔ ∃ s t, s ++ p ++ t = g := by
  intro g
  induction g with
  | nil =>
    simp only [isSubList, List.isEmpty_iff]
    constructor
    · rintro rfl; exact ⟨[], [], rfl⟩
    · rintro ⟨s, t, h⟩
      rcases List.append_eq_nil.1 h with ⟨h1, h2⟩
      exact (List.append_eq_nil.1 h1).2
  | cons c cs ih =>
    simp only [isSubList, Bool.or_eq_true, startsWith_iff, ih]
    constructor
    · rintro (⟨t, ht⟩ | ⟨s, t, h⟩)
      · exact ⟨[], t, by simpa using ht⟩
      · exact ⟨c :: s, t, by simp [h]⟩
    · rintro ⟨s, t, h⟩
      cases s with
      | nil => exact Or.inl ⟨t, by simpa using h⟩
      | cons d ds =>
        right
        refine ⟨ds, t, ?_⟩
        simp only [List.cons_append, List.cons.injEq] at h
        exact h.2

/-! ### C3: behaviour of the predicates on empty-after-normalization strings -/

/-- C3 counterexample: on the inputs `a = ""`, `b = ""` (both of which
normalize to the empty string) the claim fails: `exact_match "" ""` is true,
because both sides normalize to the same empty string. -/
theorem empty_match_claim_cex :
    ¬ ((normalize_for_match ("".toList) = [] ∨ normalize_for_match ("".toList) = []) →
        exact_match ("".toList) ("".toList) = false ∧
        partial_match ("".toList) ("".toList) = false) := by
  decide

/-- C3 (amended): if either input normalizes to the empty string then
`partial_match` returns false, while `exact_match` returns true exactly when
both inputs normalize to the empty string (and false when only one does). -/
theorem empty_match_amended (a b : Str)
    (h : normalize_for_match a = [] ∨ normalize_for_match b = []) :
    partial_match a b = false ∧
    (exact_match a b = true ↔
      (normalize_for_match a = [] ∧ normalize_for_match b = [])) := by
  constructor
  · simp only [partial_match]
    rw [if_pos h]
  · rcases h with h | h <;> simp [exact_match, h, eq_comm]

/-- C3 amended witness: with a whitespace-only predicted text and a non-empty
gold text, `partial_match` is false. -/
theorem empty_match_amended_witness :
    partial_match ("   ".toList) ("x".toList) = false :=
  (empty_match_amended _ _ (Or.inl (by decide))).1

/-! ### C6: characterization of the partial predicate -/

/-- C6: `partial_match a b` is true iff both normalized strings are non-empty
and one is a substring (contiguous sublist) of the other; moreover the
spec's example — predicted `medication/"cefazolin"` against gold
`medication/"Cefazolin 250mg IV"` under the partial predicate — scores
`tp = 1`. -/
theorem partial_match_spec :
    (∀ a b : Str, partial_match a b = true ↔
      normalize_for_match a ≠ [] ∧ normalize_for_match b ≠ [] ∧
        ((∃ s t, s ++ normalize_for_match a ++ t = normalize_for_match b) ∨
         (∃ s t, s ++ normalize_for_match b ++ t = normalize_for_match a)))
  ∧ (compute_metrics [⟨"medication".toList, "cefazolin".toList⟩]
      [⟨"medication".toList, "Cefazolin 250mg IV".toList⟩] pname).tp = 1 := by
  constructor
  · intro a b
    simp only [partial_match]
    by_cases hp : normalize_for_match a = []
    · simp [hp]
    · by_cases hg : normalize_for_match b = []
      · simp [hp, hg]
      · simp [hp, hg, isSubList_iff]
  · decide

/-! ### C9: shapes accepted by `load_gold` -/

/-- C9: `load_gold` returns a bare list unchanged, returns the value of the
`"extractions"` field of an object that has one, and returns the empty list
for an object without that field and for every non-list non-object value. -/
theorem load_gold_shapes :
    (∀ xs, load_gold (.jarr xs) = .jarr xs)
  ∧ (∀ fs v, lookupField fs extractionsKey = some v → load_gold (.jobj fs) = v)
  ∧ (∀ fs, lookupField fs extractionsKey = none → load_gold (.jobj fs) = .jarr [])
  ∧ load_gold .jnull = .jarr []
  ∧ (∀ b, load_gold (.jbool b) = .jarr [])
  ∧ (∀ q, load_gold (.jnum q) = .jarr [])
  ∧ (∀ s, load_gold (.jstr s) = .jarr []) := by
  refine ⟨fun xs => rfl, fun fs v h => ?_, fun fs h => ?_, rfl,
    fun b => rfl, fun q => rfl, fun s => rfl⟩
  · simp [load_gold, h]
  · simp [load_gold, h]

/-- C9 witness: an object whose `"extractions"` field is `null` yields that
field's value. -/
theorem load_gold_shapes_witness :
    load_gold (.jobj [(extractionsKey, .jnull)]) = .jnull :=
  load_gold_shapes.2.1 _ _ rfl

/-! ### C10: predicate selection for unknown `match_fn` strings -/

/-- C10: any `match_fn` other than `"partial"` selects the exact predicate:
`compute_metrics` then agrees with `match_fn = "exact"` on all inputs, and in
particular an unknown name like `"fuzzy"` scores the spec's
partial-containment example as `tp = 0` where the partial default scores
`tp = 1`. -/
theorem selectMatch_unknown :
    ∀ mf : Str, mf ≠ pname →
      selectMatch mf = exact_match
      ∧ (∀ predicted gold, compute_metrics predicted gold mf =
          compute_metrics predicted gold ename)
      ∧ (compute_metrics [⟨"medication".toList, "cefazolin".toList⟩]
          [⟨"medication".toList, "Cefazolin 250mg IV".toList⟩] mf).tp = 0
      ∧ (compute_metrics [⟨"medication".toList, "cefazolin".toList⟩]
          [⟨"medication".toList, "Cefazolin 250mg IV".toList⟩] pname).tp = 1 := by
  intro mf h
  have hsel : selectMatch mf = exact_match := by
    simp [selectMatch, h]
  have he : selectMatch ename = exact_match := by
    simp [selectMatch, show ename ≠ pname from by decide]
  have hCM : ∀ predicted gold, compute_metrics predicted gold mf =
      compute_metrics predicted gold ename := by
    intro predicted gold
    simp [compute_metrics, hsel, he]
  refine ⟨hsel, hCM, ?_, ?_⟩
  · rw [hCM]; decide
  · decide

/-- C10 witness: the unrecognised name `"fuzzy"` silently selects the exact
predicate, so the partial-containment example scores zero. -/
theorem selectMatch_unknown_witness :
    (compute_metrics [⟨"medication".toList, "cefazolin".toList⟩]
      [⟨"medication".toList, "Cefazolin 250mg IV".toList⟩] ("fuzzy".toList)).tp
      = 0 :=
  (selectMatch_unknown ("fuzzy".toList) (by decide)).2.2.1

/-! ### C4: the aggregate of the evaluation report -/

/-- C4 counterexample: for a single document pair that has both a predicted
and a gold record sequence but whose predicted sequence is empty, the
aggregate is absent (`{}` in the source), not the global recompute the claim
demands. -/
theorem run_eval_aggregate_cex :
    (run_eval_core [(([] : List ERec),
        [⟨"medication".toList, "Cefazolin".toList⟩])]).2 ≠
      some (compute_metrics ([] : List ERec)
        [⟨"medication".toList, "Cefazolin".toList⟩] pname) := by
  decide

/-- C4 (amended): whenever the pooled predicted sequence and the pooled gold
sequence are both non-empty, the aggregate of the report equals a single
`compute_metrics` call over the concatenations in document order; the
per-document results are the per-pair `compute_metrics` calls.  (When either
pool is empty the source returns an empty aggregate instead.) -/
theorem run_eval_aggregate_amended (docs : List (List ERec × List ERec))
    (h1 : (docs.map Prod.fst).flatten ≠ [])
    (h2 : (docs.map Prod.snd).flatten ≠ []) :
    (run_eval_core docs).2 =
      some (compute_metrics ((docs.map Prod.fst).flatten)
        ((docs.map Prod.snd).flatten) pname)
    ∧ (run_eval_core docs).1 =
        docs.map fun d => compute_metrics d.1 d.2 pname := by
  constructor
  · simp [run_eval_core, h1, h2]
  · rfl

/-- C4 amended witness: over two concrete documents the aggregate equals the
single global `compute_metrics` call over the concatenated sequences. -/
theorem run_eval_aggregate_witness :
    (run_eval_core
      [([⟨"medication".toList, "cefazolin".toList⟩],
        [⟨"medication".toList, "Cefazolin 250mg IV".toList⟩]),
       ([⟨"dosage".toList, "250mg".toList⟩],
        [⟨"dosage".toList, "250 mg".toList⟩])]).2 =
      some (compute_metrics
        [⟨"medication".toList, "cefazolin".toList⟩,
         ⟨"dosage".toList, "250mg".toList⟩]
        [⟨"medication".toList, "Cefazolin 250mg IV".toList⟩,
         ⟨"dosage".toList, "250 mg".toList⟩] pname) :=
  (run_eval_aggregate_amended
    [([⟨"medication".toList, "cefazolin".toList⟩],
      [⟨"medication".toList, "Cefazolin 250mg IV".toList⟩]),
     ([⟨"dosage".toList, "250mg".toList⟩],
      [⟨"dosage".toList, "250 mg".toList⟩])]
    (by decide) (by decide)).1

/-! ### Invariants of the greedy matching loop -/

/-- If the inner scan returns index `i`, then `i` was not yet consumed and the
scanned list holds a pair `(i, g)` passing the class and text checks. -/
theorem scanGold_some_mem (m : Str → Str → Bool) (p : ERec) (c : List Nat)
    (l : List (Nat × ERec)) :
    ∀ i : Nat, scanGold m p c l = some i →
      i ∉ c ∧ ∃ g, (i, g) ∈ l ∧ p.cls = g.cls ∧ m p.text g.text = true := by
  induction l with
  | nil => intro i h; simp [scanGold] at h
  | cons x rest ih =>
    obtain ⟨j, g⟩ := x
    intro i h
    simp only [scanGold] at h
    split_ifs at h with h1 h2 h3
    · obtain ⟨hic, g', hmem, hcl, hm⟩ := ih i h
      exact ⟨hic, g', List.mem_cons_of_mem _ hmem, hcl, hm⟩
    · obtain ⟨hic, g', hmem, hcl, hm⟩ := ih i h
      exact ⟨hic, g', List.mem_cons_of_mem _ hmem, hcl, hm⟩
    · obtain rfl : j = i := Option.some.inj h
      exact ⟨h1, g, List.mem_cons_self _ _, not_not.1 h2, h3⟩
    · obtain ⟨hic, g', hmem, hcl, hm⟩ := ih i h
      exact ⟨hic, g', List.mem_cons_of_mem _ hmem, hcl, hm⟩

/-- Indices occurring in `pyEnum n l` lie in `[n, n + l.length)`. -/
theorem pyEnum_mem_lt {α : Type} (l : List α) :
    ∀ (n : Nat) (x : Nat × α), x ∈ pyEnum n l →
      n ≤ x.1 ∧ x.1 < n + l.length := by
  induction l with
  | nil => intro n x h; simp [pyEnum] at h
  | cons a as ih =>
    intro n x h
    simp only [pyEnum, List.mem_cons] at h
    rcases h with rfl | h
    · simp only [List.length_cons]
      omega
    · obtain ⟨h1, h2⟩ := ih (n + 1) x h
      simp only [List.length_cons]
      omega

/-- Loop invariant of the greedy fold: the true-positive count equals the
number of consumed gold indices, no gold index is consumed twice, and every
consumed index is a valid position in the gold list. -/
def GInv (n : Nat) (st : Nat × List Nat) : Prop :=
  st.1 = st.2.length ∧ st.2.Nodup ∧ ∀ i ∈ st.2, i < n

/-- One predicted record preserves the loop invariant. -/
theorem stepPred_inv (m : Str → Str → Bool) (gold : List ERec) (p : ERec)
    (st : Nat × List Nat) (h : GInv gold.length st) :
    GInv gold.length (stepPred m gold st p) := by
  obtain ⟨hlen, hnd, hlt⟩ := h
  simp only [stepPred]
  cases hscan : scanGold m p st.2 (pyEnum 0 gold) with
  | none => exact ⟨hlen, hnd, hlt⟩
  | some i =>
    obtain ⟨hic, g, hmem, -, -⟩ := scanGold_some_mem m p st.2 _ i hscan
    obtain ⟨-, hb⟩ := pyEnum_mem_lt gold 0 (i, g) hmem
    refine ⟨by simp [hlen], List.nodup_cons.2 ⟨hic, hnd⟩, ?_⟩
    intro j hj
    rcases List.mem_cons.1 hj with rfl | hj
    · omega
    · exact hlt j hj

/-- The whole greedy fold preserves the loop invariant. -/
theorem foldl_inv (m : Str → Str → Bool) (gold : List ERec) :
    ∀ (l : List ERec) (st : Nat × List Nat), GInv gold.length st →
      GInv gold.length (l.foldl (stepPred m gold) st) := by
  intro l
  induction l with
  | nil => intro st h; exact h
  | cons p ps ih => intro st h; exact ih _ (stepPred_inv m gold p st h)

/-- Each predicted record raises the true-positive count by at most one. -/
theorem foldl_fst_le (m : Str → Str → Bool) (gold : List ERec) :
    ∀ (l : List ERec) (st : Nat × List Nat),
      (l.foldl (stepPred m gold) st).1 ≤ st.1 + l.length := by
  intro l
  induction l with
  | nil => intro st; simp
  | cons p ps ih =>
    intro st
    have h1 : (stepPred m gold st p).1 ≤ st.1 + 1 := by
      simp only [stepPred]
      cases scanGold m p st.2 (pyEnum 0 gold) <;> simp
    have h2 := ih (stepPred m gold st p)
    simp only [List.foldl_cons, List.length_cons]
    omega

/-- A duplicate-free list of numbers below `n` has length at most `n`. -/
theorem nodup_bound (c : List Nat) (n : Nat) (hnd : c.Nodup)
    (hlt : ∀ i ∈ c, i < n) : c.length ≤ n := by
  have h1 : c.toFinset.card = c.length := List.toFinset_card_of_nodup hnd
  have h2 : c.toFinset ⊆ Finset.range n := by
    intro i hi
    simp only [List.mem_toFinset] at hi
    exact Finset.mem_range.2 (hlt i hi)
  have h3 := Finset.card_le_card h2
  rw [Finset.card_range] at h3
  omega

/-- The true-positive count is bounded by both sequence lengths. -/
theorem greedy_tp_le (m : Str → Str → Bool) (predicted gold : List ERec) :
    (greedy m predicted gold).1 ≤ predicted.length ∧
    (greedy m predicted gold).1 ≤ gold.length := by
  constructor
  · have h := foldl_fst_le m gold predicted (0, [])
    simpa [greedy] using h
  · obtain ⟨hlen, hnd, hlt⟩ := foldl_inv m gold predicted (0, [])
      ⟨rfl, List.nodup_nil, by simp⟩
    have hb := nodup_bound _ gold.length hnd hlt
    simp only [greedy] at *
    omega

/-- With an empty gold list the greedy loop never matches anything. -/
theorem greedy_gold_nil (m : Str → Str → Bool) (predicted : List ERec) :
    greedy m predicted [] = (0, []) := by
  have h : ∀ (l : List ERec) (st : Nat × List Nat),
      l.foldl (stepPred m []) st = st := by
    intro l
    induction l with
    | nil => intro st; rfl
    | cons p ps ih =>
      intro st
      have hstep : stepPred m [] st p = st := by
        simp [stepPred, pyEnum, scanGold]
      simp [List.foldl_cons, hstep, ih]
  exact h predicted (0, [])

/-! ### C2: the derived precision / recall / F1 formulas and zero guards -/

/-- C2: `compute_metrics` records the input lengths, computes
`precision = tp / |predicted|` (0 when `|predicted| = 0`),
`recall = tp / |gold|` (0 when `|gold| = 0`), and
`f1 = 2·p·r / (p + r)` when that sum is positive and 0 otherwise; the
function is total, and an empty predicted or gold sequence yields all-zero
precision, recall, F1 and true positives. -/
theorem compute_metrics_formulas :
    ∀ (predicted gold : List ERec) (mf : Str),
      (compute_metrics predicted gold mf).pred = predicted.length
    ∧ (compute_metrics predicted gold mf).gold = gold.length
    ∧ (compute_metrics predicted gold mf).precision =
        (if predicted.length = 0 then 0
         else ((compute_metrics predicted gold mf).tp : ℚ) / predicted.length)
    ∧ (compute_metrics predicted gold mf).«recall» =
        (if gold.length = 0 then 0
         else ((compute_metrics predicted gold mf).tp : ℚ) / gold.length)
    ∧ (compute_metrics predicted gold mf).f1 =
        (if (compute_metrics predicted gold mf).precision
              + (compute_metrics predicted gold mf).«recall» > 0 then
          2 * (compute_metrics predicted gold mf).precision
              * (compute_metrics predicted gold mf).«recall»
            / ((compute_metrics predicted gold mf).precision
              + (compute_metrics predicted gold mf).«recall»)
         else 0)
    ∧ ((predicted = [] ∨ gold = []) →
        (compute_metrics predicted gold mf).precision = 0
      ∧ (compute_metrics predicted gold mf).«recall» = 0
      ∧ (compute_metrics predicted gold mf).f1 = 0
      ∧ (compute_metrics predicted gold mf).tp = 0) := by
  intro predicted gold mf
  refine ⟨cm_pred _ _ _, cm_gold _ _ _, ?_, ?_, cm_f1 _ _ _, ?_⟩
  · rw [cm_precision, ite_not]
  · rw [cm_recall, ite_not]
  · intro h
    have htp : (compute_metrics predicted gold mf).tp = 0 := by
      rcases h with rfl | rfl
      · rw [cm_tp]; rfl
      · rw [cm_tp, greedy_gold_nil]
    have hprec : (compute_metrics predicted gold mf).precision = 0 := by
      rw [cm_precision, htp]
      split_ifs <;> simp
    have hrec : (compute_metrics predicted gold mf).«recall» = 0 := by
      rw [cm_recall, htp]
      split_ifs <;> simp
    have hf1 : (compute_metrics predicted gold mf).f1 = 0 := by
      rw [cm_f1, hprec, hrec]
      norm_num
    exact ⟨hprec, hrec, hf1, htp⟩

/-- C2 witness: scoring an empty predicted sequence against one gold record
yields zero recall (guarded, no division error). -/
theorem compute_metrics_formulas_witness :
    (compute_metrics ([] : List ERec)
      [⟨"medication".toList, "Cefazolin".toList⟩] pname).«recall» = 0 :=
  ((compute_metrics_formulas [] [⟨"medication".toList, "Cefazolin".toList⟩]
    pname).2.2.2.2.2 (Or.inl rfl)).2.1

/-! ### C5: one-to-one consumption -/

/-- C5: the true-positive count never exceeds either input length (each gold
record is consumed at most once and each predicted record matches at most
once — the consumed index list is duplicate-free); on the spec's example of
two identical `fever` predictions against one gold `fever`, `tp = 1`,
`precision = 1/2` and `recall = 1`. -/
theorem tp_one_to_one :
    ∀ (predicted gold : List ERec) (mf : Str),
      (compute_metrics predicted gold mf).tp ≤
        min predicted.length gold.length
    ∧ (greedy (selectMatch mf) predicted gold).2.Nodup
    ∧ (compute_metrics
        [⟨"symptom_sign".toList, "fever".toList⟩,
         ⟨"symptom_sign".toList, "fever".toList⟩]
        [⟨"symptom_sign".toList, "fever".toList⟩] pname).tp = 1
    ∧ (compute_metrics
        [⟨"symptom_sign".toList, "fever".toList⟩,
         ⟨"symptom_sign".toList, "fever".toList⟩]
        [⟨"symptom_sign".toList, "fever".toList⟩] pname).precision = 1 / 2
    ∧ (compute_metrics
        [⟨"symptom_sign".toList, "fever".toList⟩,
         ⟨"symptom_sign".toList, "fever".toList⟩]
        [⟨"symptom_sign".toList, "fever".toList⟩] pname).«recall» = 1 := by
  intro predicted gold mf
  obtain ⟨h1, h2⟩ := greedy_tp_le (selectMatch mf) predicted gold
  have hinv := foldl_inv (selectMatch mf) gold predicted (0, [])
    ⟨rfl, List.nodup_nil, by simp⟩
  have htp : (compute_metrics
      [⟨"symptom_sign".toList, "fever".toList⟩,
       ⟨"symptom_sign".toList, "fever".toList⟩]
      [⟨"symptom_sign".toList, "fever".toList⟩] pname).tp = 1 := by decide
  refine ⟨?_, hinv.2.1, htp, ?_, ?_⟩
  · rw [cm_tp]
    exact le_min h1 h2
  · rw [cm_precision, htp]
    norm_num
  · rw [cm_recall, htp]
    norm_num

/-! ### C8: precision, recall and F1 lie in [0, 1] -/

/-- A guarded ratio of a numerator bounded by the denominator lies in `[0,1]`. -/
theorem ratio_unit (tp n : Nat) (h : tp ≤ n) :
    0 ≤ (if n ≠ 0 then (tp : ℚ) / n else 0) ∧
    (if n ≠ 0 then (tp : ℚ) / n else 0) ≤ 1 := by
  split_ifs with hn
  · have hn' : (0 : ℚ) < n := by
      exact_mod_cast Nat.pos_of_ne_zero hn
    constructor
    · positivity
    · rw [div_le_one hn']
      exact_mod_cast h
  · norm_num

/-- C8: for every input (empty ones included) the precision, recall and F1
computed by `compute_metrics` lie in the closed interval `[0, 1]`. -/
theorem metrics_unit_interval :
    ∀ (predicted gold : List ERec) (mf : Str),
      0 ≤ (compute_metrics predicted gold mf).precision
    ∧ (compute_metrics predicted gold mf).precision ≤ 1
    ∧ 0 ≤ (compute_metrics predicted gold mf).«recall»
    ∧ (compute_metrics predicted gold mf).«recall» ≤ 1
    ∧ 0 ≤ (compute_metrics predicted gold mf).f1
    ∧ (compute_metrics predicted gold mf).f1 ≤ 1 := by
  intro predicted gold mf
  obtain ⟨htp1, htp2⟩ := greedy_tp_le (selectMatch mf) predicted gold
  obtain ⟨hp0, hp1⟩ : 0 ≤ (compute_metrics predicted gold mf).precision ∧
      (compute_metrics predicted gold mf).precision ≤ 1 := by
    rw [cm_precision, cm_tp]
    exact ratio_unit _ _ htp1
  obtain ⟨hr0, hr1⟩ : 0 ≤ (compute_metrics predicted gold mf).«recall» ∧
      (compute_metrics predicted gold mf).«recall» ≤ 1 := by
    rw [cm_recall, cm_tp]
    exact ratio_unit _ _ htp2
  refine ⟨hp0, hp1, hr0, hr1, ?_, ?_⟩
  · rw [cm_f1]
    split_ifs with hpr
    · apply div_nonneg _ (le_of_lt hpr)
      nlinarith [mul_nonneg hp0 hr0]
    · exact le_refl 0
  · rw [cm_f1]
    split_ifs with hpr
    · rw [div_le_one hpr]
      nlinarith [mul_nonneg (sub_nonneg.2 hp1) hr0,
        mul_nonneg (sub_nonneg.2 hr1) hp0]
    · norm_num

/-! ### C7: scoring a sequence against itself with the exact predicate -/

/-- The exact predicate is reflexive. -/
theorem exact_match_refl (t : Str) : exact_match t t = true := by
  simp [exact_match]

/-- The candidate check of the inner scan: the index is not consumed, the
classes agree (case-sensitively), and the text predicate holds. -/
def matchOK (m : Str → Str → Bool) (p : ERec) (c : List Nat) (idx : Nat)
    (g : ERec) : Prop :=
  idx ∉ c ∧ p.cls = g.cls ∧ m p.text g.text = true

/-- A scanned pair failing the candidate check is skipped. -/
theorem scanGold_cons_skip (m : Str → Str → Bool) (p : ERec) (c : List Nat)
    (j : Nat) (g : ERec) (rest : List (Nat × ERec))
    (h : ¬ matchOK m p c j g) :
    scanGold m p c ((j, g) :: rest) = scanGold m p c rest := by
  simp only [scanGold]
  split_ifs with h1 h2 h3
  · rfl
  · rfl
  · exact absurd ⟨h1, not_not.1 h2, h3⟩ h
  · rfl

/-- The first scanned pair passing the candidate check is returned. -/
theorem scanGold_cons_hit (m : Str → Str → Bool) (p : ERec) (c : List Nat)
    (j : Nat) (g : ERec) (rest : List (Nat × ERec))
    (h : matchOK m p c j g) :
    scanGold m p c ((j, g) :: rest) = some j := by
  obtain ⟨h1, h2, h3⟩ := h
  simp only [scanGold]
  rw [if_neg h1, if_neg (not_not.2 h2), if_pos h3]

/-- Pairs whose indices are all consumed are skipped wholesale. -/
theorem scanGold_skip_all (m : Str → Str → Bool) (p : ERec) (c : List Nat) :
    ∀ (l rest : List (Nat × ERec)), (∀ x ∈ l, x.1 ∈ c) →
      scanGold m p c (l ++ rest) = scanGold m p c rest := by
  intro l
  induction l with
  | nil => intro rest _; rfl
  | cons x xs ih =>
    intro rest h
    obtain ⟨j, g⟩ := x
    have hj : j ∈ c := h (j, g) (List.mem_cons_self _ _)
    rw [List.cons_append,
      scanGold_cons_skip m p c j g _ (fun hOK => hOK.1 hj)]
    exact ih rest (fun y hy => h y (List.mem_cons_of_mem _ hy))

/-- `pyEnum` distributes over append, shifting the start index. -/
theorem pyEnum_append {α : Type} :
    ∀ (a b : List α) (n : Nat),
      pyEnum n (a ++ b) = pyEnum n a ++ pyEnum (n + a.length) b := by
  intro a
  induction a with
  | nil => intro b n; simp [pyEnum]
  | cons x xs ih =>
    intro b n
    show (n, x) :: pyEnum (n + 1) (xs ++ b) =
      (n, x) :: pyEnum (n + 1) xs ++ pyEnum (n + (xs.length + 1)) b
    rw [ih b (n + 1)]
    have h : n + 1 + xs.length = n + (xs.length + 1) := by omega
    rw [h, List.cons_append]

/-- When the consumed set is exactly `{0, …, k-1}`, scanning the gold list for
its own `k`-th record under the exact predicate returns index `k`. -/
theorem scan_self (X : List ERec) (k : Nat) (hk : k < X.length)
    (c : List Nat) (hc : ∀ i, i ∈ c ↔ i < k) :
    scanGold exact_match (X.get ⟨k, hk⟩) c (pyEnum 0 X) = some k := by
  have hsplit : X.take k ++ X.drop k = X := List.take_append_drop k X
  have htk : (X.take k).length = k := by
    rw [List.length_take]
    omega
  have henum : pyEnum 0 X = pyEnum 0 (X.take k) ++ pyEnum k (X.drop k) := by
    calc pyEnum 0 X = pyEnum 0 (X.take k ++ X.drop k) := by rw [hsplit]
      _ = pyEnum 0 (X.take k) ++ pyEnum (0 + (X.take k).length) (X.drop k) :=
          pyEnum_append _ _ _
      _ = pyEnum 0 (X.take k) ++ pyEnum k (X.drop k) := by
          rw [htk, Nat.zero_add]
  have hskipall : ∀ x ∈ pyEnum 0 (X.take k), x.1 ∈ c := by
    intro x hx
    obtain ⟨h1, h2⟩ := pyEnum_mem_lt (X.take k) 0 x hx
    rw [hc x.1]
    omega
  have hdrop : X.drop k = X.get ⟨k, hk⟩ :: X.drop (k + 1) := by
    rw [List.get_eq_getElem]
    exact List.drop_eq_getElem_cons hk
  rw [henum, scanGold_skip_all exact_match _ c _ _ hskipall, hdrop]
  simp only [pyEnum]
  refine scanGold_cons_hit _ _ _ _ _ _ ⟨?_, rfl, exact_match_refl _⟩
  rw [hc k]
  omega

/-- Folding the suffix `X.drop k` of the predicted list over its own gold list
`X` with the exact predicate, starting from `k` matches and consumed set
`{0, …, k-1}`, matches everything. -/
theorem fold_self :
    ∀ (d : Nat) (X : List ERec) (k : Nat) (c : List Nat),
      X.length - k = d → k ≤ X.length → (∀ i, i ∈ c ↔ i < k) →
      ((X.drop k).foldl (stepPred exact_match X) (k, c)).1 = X.length := by
  intro d
  induction d with
  | zero =>
    intro X k c hd hle hc
    have hk : k = X.length := by omega
    subst hk
    rw [List.drop_length]
    rfl
  | succ d ih =>
    intro X k c hd hle hc
    have hk : k < X.length := by omega
    have hdrop : X.drop k = X.get ⟨k, hk⟩ :: X.drop (k + 1) := by
      rw [List.get_eq_getElem]
      exact List.drop_eq_getElem_cons hk
    rw [hdrop, List.foldl_cons]
    have hscan := scan_self X k hk c hc
    have hstep : stepPred exact_match X (k, c) (X.get ⟨k, hk⟩) =
        (k + 1, k :: c) := by
      simp only [stepPred, hscan]
    rw [hstep]
    exact ih X (k + 1) (k :: c) (by omega) (by omega)
      (fun i => by rw [List.mem_cons, hc i]; omega)

/-- C7 counterexample: the empty sequence satisfies the claim's hypotheses
vacuously (all its records have non-empty, pairwise-non-duplicate texts), yet
scoring it against itself with the exact predicate yields precision 0, not 1. -/
theorem exact_self_empty_cex :
    (∀ r ∈ ([] : List ERec), normalize_for_match r.text ≠ [])
  ∧ List.Pairwise (fun r s => r.cls = s.cls →
      normalize_for_match r.text ≠ normalize_for_match s.text) ([] : List ERec)
  ∧ (compute_metrics ([] : List ERec) [] ename).precision ≠ 1 := by
  refine ⟨by simp, List.Pairwise.nil, ?_⟩
  rw [cm_precision]
  norm_num

/-- C7 (amended): for every NON-EMPTY sequence `X` of records with non-empty
texts that are pairwise non-duplicate (after normalization) within each
class, scoring `X` against itself with the exact predicate gives
precision = recall = f1 = 1. -/
theorem exact_self_perfect (X : List ERec) (hne : X ≠ [])
    (htext : ∀ r ∈ X, normalize_for_match r.text ≠ [])
    (hdup : X.Pairwise (fun r s => r.cls = s.cls →
      normalize_for_match r.text ≠ normalize_for_match s.text)) :
    (compute_metrics X X ename).precision = 1
    ∧ (compute_metrics X X ename).«recall» = 1
    ∧ (compute_metrics X X ename).f1 = 1 := by
  have hsel : selectMatch ename = exact_match := by
    simp [selectMatch, show ename ≠ pname from by decide]
  have htp : (compute_metrics X X ename).tp = X.length := by
    rw [cm_tp, hsel]
    have h := fold_self X.length X 0 [] (by omega) (Nat.zero_le _)
      (fun i => by simp)
    simpa [greedy] using h
  have hlen : X.length ≠ 0 := fun h => hne (List.length_eq_zero.1 h)
  have hlenq : (X.length : ℚ) ≠ 0 := Nat.cast_ne_zero.2 hlen
  have hprec : (compute_metrics X X ename).precision = 1 := by
    rw [cm_precision, htp, if_pos hlen, div_self hlenq]
  have hrec : (compute_metrics X X ename).«recall» = 1 := by
    rw [cm_recall, htp, if_pos hlen, div_self hlenq]
  refine ⟨hprec, hrec, ?_⟩
  rw [cm_f1, hprec, hrec]
  norm_num

/-- C7 amended witness: a one-record sequence scored against itself under the
exact predicate has precision 1. -/
theorem exact_self_perfect_witness :
    (compute_metrics [⟨"medication".toList, "cefazolin".toList⟩]
      [⟨"medication".toList, "cefazolin".toList⟩] ename).precision = 1 :=
  (exact_self_perfect [⟨"medication".toList, "cefazolin".toList⟩]
    (by simp) (by decide) (by simp)).1

/-! ### C1: the greedy first-match characterization -/

/-- A gold index `i` is a valid candidate for predicted record `p`: it is in
range, not yet consumed, its class equals `p`'s class (case-sensitive, exact
string comparison), and the text predicate accepts the pair of texts. -/
def okIdx (m : Str → Str → Bool) (p : ERec) (c : List Nat)
    (gold : List ERec) (i : Nat) : Prop :=
  ∃ g, gold.get? i = some g ∧ matchOK m p c i g

/-- Characterization of the inner scan, generalized over the enumeration
offset: it returns `n + k` exactly when position `k` is a valid candidate and
no earlier position is. -/
theorem scan_enum_char (m : Str → Str → Bool) (p : ERec) (c : List Nat) :
    ∀ (l : List ERec) (n i : Nat),
      scanGold m p c (pyEnum n l) = some i ↔
        ∃ k g, l.get? k = some g ∧ i = n + k ∧ matchOK m p c (n + k) g
          ∧ ∀ j, j < k → ∀ g', l.get? j = some g' →
              ¬ matchOK m p c (n + j) g' := by
  intro l
  induction l with
  | nil =>
    intro n i
    simp [pyEnum, scanGold]
  | cons g0 gs ih =>
    intro n i
    have henum : pyEnum n (g0 :: gs) = (n, g0) :: pyEnum (n + 1) gs := rfl
    by_cases hV : matchOK m p c n g0
    · rw [henum, scanGold_cons_hit m p c n g0 _ hV]
      constructor
      · intro h
        obtain rfl : n = i := Option.some.inj h
        refine ⟨0, g0, rfl, by omega, ?_, ?_⟩
        · simpa using hV
        · intro j hj
          omega
      · rintro ⟨k, g, hget, rfl, hOK, hleast⟩
        cases k with
        | zero => rfl
        | succ k' =>
          exfalso
          refine hleast 0 (by omega) g0 rfl ?_
          simpa using hV
    · rw [henum, scanGold_cons_skip m p c n g0 _ hV, ih (n + 1) i]
      constructor
      · rintro ⟨k, g, hget, rfl, hOK, hleast⟩
        refine ⟨k + 1, g, ?_, by omega, ?_, ?_⟩
        · simpa using hget
        · have h : n + (k + 1) = n + 1 + k := by omega
          rw [h]
          exact hOK
        · intro j hj g' hget'
          cases j with
          | zero =>
            obtain rfl : g0 = g' := Option.some.inj hget'
            simpa using hV
          | succ j' =>
            have h : n + (j' + 1) = n + 1 + j' := by omega
            rw [h]
            exact hleast j' (by omega) g' (by simpa using hget')
      · rintro ⟨k, g, hget, rfl, hOK, hleast⟩
        cases k with
        | zero =>
          exfalso
          obtain rfl : g0 = g := Option.some.inj hget
          exact hV (by simpa using hOK)
        | succ k' =>
          refine ⟨k', g, by simpa using hget, by omega, ?_, ?_⟩
          · have h : n + 1 + k' = n + (k' + 1) := by omega
            rw [h]
            exact hOK
          · intro j hj g' hget'
            have h : n + 1 + j = n + (j + 1) := by omega
            rw [h]
            exact hleast (j + 1) (by omega) g' (by simpa using hget')

/-- C1: the inner scan of `compute_metrics` returns exactly the least gold
index that is unconsumed, class-equal (case-sensitive, non-normalized) and
text-matching; on success the step marks that index consumed, increments the
true-positive count, and stops; `compute_metrics`'s true-positive count is
the fold of these steps over the predicted records in input order; and
records of different classes never match, whatever their texts and whichever
predicate name is configured. -/
theorem greedy_first_match :
    ∀ (m : Str → Str → Bool) (p : ERec) (gold : List ERec)
      (consumed : List Nat) (i : Nat),
      (scanGold m p consumed (pyEnum 0 gold) = some i ↔
        okIdx m p consumed gold i ∧ ∀ j, j < i → ¬ okIdx m p consumed gold j)
    ∧ (∀ (st : Nat × List Nat) (q : ERec),
        scanGold m q st.2 (pyEnum 0 gold) = some i →
          stepPred m gold st q = (st.1 + 1, i :: st.2))
    ∧ (∀ (predicted : List ERec) (mf : Str),
        (compute_metrics predicted gold mf).tp =
          (predicted.foldl (stepPred (selectMatch mf) gold) (0, [])).1)
    ∧ (∀ (c1 c2 t1 t2 mf : Str), c1 ≠ c2 →
        (compute_metrics [⟨c1, t1⟩] [⟨c2, t2⟩] mf).tp = 0) := by
  intro m p gold consumed i
  refine ⟨?_, ?_, ?_, ?_⟩
  · rw [scan_enum_char m p consumed gold 0 i]
    constructor
    · rintro ⟨k, g, hget, rfl, hOK, hleast⟩
      rw [Nat.zero_add]
      constructor
      · exact ⟨g, hget, by simpa using hOK⟩
      · rintro j hj ⟨g', hget', hOK'⟩
        exact hleast j (by omega) g' hget' (by simpa using hOK')
    · rintro ⟨⟨g, hget, hOK⟩, hleast⟩
      refine ⟨i, g, hget, by omega, by simpa using hOK, ?_⟩
      intro j hj g' hget' hOK'
      exact hleast j (by omega) ⟨g', hget', by simpa using hOK'⟩
  · intro st q hs
    simp only [stepPred, hs]
  · intro predicted mf
    rfl
  · intro c1 c2 t1 t2 mf h
    rw [cm_tp]
    have hskip : scanGold (selectMatch mf) ⟨c1, t1⟩ []
        (pyEnum 0 [(⟨c2, t2⟩ : ERec)]) = none := by
      rw [show pyEnum 0 [(⟨c2, t2⟩ : ERec)] = [(0, ⟨c2, t2⟩)] from rfl,
        scanGold_cons_skip _ _ _ _ _ _ (fun hOK => h hOK.2.1)]
      rfl
    simp [greedy, stepPred, hskip]

/-- C1 witness: a `medication` prediction never consumes a `dosage` gold
record, even with the identical text `Cefazolin`. -/
theorem greedy_first_match_witness :
    (compute_metrics [⟨"medication".toList, "Cefazolin".toList⟩]
      [⟨"dosage".toList, "Cefazolin".toList⟩] pname).tp = 0 :=
  (greedy_first_match partial_match ⟨[], []⟩ [] [] 0).2.2.2
    "medication".toList "dosage".toList "Cefazolin".toList "Cefazolin".toList
    pname (by decide)
